import Mathlib

/-!
Verification of the wordplay reactive evaluator specification against the
repository source.

The development has four parts:
1. the localization template engine (`concretize`, `parseTemplate`,
   `parseConditional`), a direct shallow embedding of the source;
2. the concept index stream catalog (`conceptIndexMake`), embedded from
   `ConceptIndex.make`;
3. a model of the reactive, pass-oriented evaluation engine (streams,
   snapshots, reaction caches) built from the specification, since the
   engine's own source files are not part of the given sources;
4. a model of the step-budget enforcement of an evaluation pass.
-/

set_option maxHeartbeats 1000000

namespace Wordplay

/-! ## Part 1: localization template engine -/

/-- Modelled from the spec: the `Description` class lives outside the given
sources; the template engine only builds one from string parts with `as`
and `with`, so it is modelled as the list of its parts. -/
structure Description where
  segments : List String
deriving DecidableEq

/-- Modelled from the spec: `Description.as` wraps a single string. -/
def Description.as (s : String) : Description := ⟨[s]⟩

/-- Modelled from the spec: `description.with(text)` appends a string part. -/
def Description.withPart (d : Description) (s : String) : Description :=
  ⟨d.segments ++ [s]⟩

/-- Modelled from the spec: `description.with(description)` appends all parts. -/
def Description.withDesc (d e : Description) : Description :=
  ⟨d.segments ++ e.segments⟩

/-- Modelled from the spec: the slice of `Locale` that the template engine
reads, namely `locale.ui.placeholders.unwritten` and the `locale.term`
terminology dictionary (`Object.hasOwn` lookup becomes an `Option`). -/
structure Locale where
  unwritten : String
  term : String → Option String

/-- The `TemplateInput` union type of the source: number, boolean, string,
undefined, NodeRef, ValueLink or Description. -/
inductive TemplateInput where
  | num (n : Int)
  | boolI (b : Bool)
  | str (s : String)
  | undef
  | nodeRef (s : String)
  | valueLink (s : String)
  | desc (d : Description)
deriving DecidableEq

/-- Modelled from the spec: how `description.with(input)` renders an input;
the rendering itself lives in the `Description` class outside the given
sources. Only the shape matters for the claims. -/
def TemplateInput.render : TemplateInput → String
  | .num n => toString n
  | .boolI b => if b then "true" else "false"
  | .str s => s
  | .undef => ""
  | .nodeRef s => s
  | .valueLink s => s
  | .desc d => String.join d.segments

/-- The `input === true` test of the source. -/
def TemplateInput.eqTrue : TemplateInput → Bool
  | .boolI true => true
  | _ => false

/-- The `input !== undefined` test of the source, negated. -/
def TemplateInput.isUndef : TemplateInput → Bool
  | .undef => true
  | _ => false

/-- The regex class `\w` used by `template.matches(/^\w+/)`. -/
def isWordChar (c : Char) : Bool := c.isAlphanum || c == '_'

/-- The regex class `\s` used by `template.matches(/^\s+\?\?/)`. -/
def isSpaceChar (c : Char) : Bool := c == ' ' || c == '\t' || c == '\n' || c == '\r'

/-- The `parseInt` applied to the digits matched by `/^[0-9]+/`. -/
def digitsVal (l : List Char) : Nat := l.foldl (fun a c => a * 10 + (c.toNat - 48)) 0

/-- The terminology lookup: `Object.hasOwn(locale.term, id) ? locale.term[id] : '-'`. -/
def termLookup (loc : Locale) (w : String) : String :=
  match loc.term w with
  | some p => p
  | none => "-"

mutual

/-- The source's `parseTemplate`, over the template text as a character list
(the mutable `Template` object becomes the returned remaining text).  The
extra fuel argument only drives the recursion; `parse_fuel_sufficient`
proves that fuel `t.length + 1` never runs out, so the embedding computes
exactly what the source computes.  The inner `none` is the source's
`undefined` result; the outer `none` is fuel exhaustion. -/
def parseTemplate : Nat → Locale → List TemplateInput → Description → List Char →
    Option (Option Description × List Char)
  | 0, _, _, _, _ => none
  | fuel + 1, loc, inputs, description, t =>
    match t with
    | [] => some (some description, [])
    | c :: r =>
      if c = '|' ∨ c = ']' ∨ c = '[' then some (some description, c :: r)
      else if c = '$' ∧ r.head? = some '$' then
        parseTemplate fuel loc inputs (description.withPart "$") r.tail
      else if c = '[' ∧ r.head? = some '[' then
        parseTemplate fuel loc inputs (description.withPart "[") r.tail
      else if c = ']' ∧ r.head? = some ']' then
        parseTemplate fuel loc inputs (description.withPart "]") r.tail
      else if c = '|' ∧ r.head? = some '|' then
        parseTemplate fuel loc inputs (description.withPart "|") r.tail
      else if c = '$' then
        let digits := r.takeWhile Char.isDigit
        if digits = [] then
          let word := r.takeWhile isWordChar
          if word = [] then
            parseTemplate fuel loc inputs description r
          else
            parseTemplate fuel loc inputs
              (description.withPart (termLookup loc (String.mk word)))
              (r.dropWhile isWordChar)
        else
          let rest := r.dropWhile Char.isDigit
          let number := digitsVal digits
          let input : TemplateInput :=
            match number with
            | 0 => .undef
            | Nat.succ k => inputs.getD k .undef
          let spaces := rest.takeWhile isSpaceChar
          let rest2 := rest.dropWhile isSpaceChar
          if spaces ≠ [] ∧ rest2.take 2 = ['?', '?'] then
            match parseConditional fuel (input.eqTrue || !input.isUndef) loc inputs
                (rest2.drop 2) with
            | none => none
            | some (none, r') => some (none, r')
            | some (some value, r') =>
              parseTemplate fuel loc inputs (description.withDesc value) r'
          else
            parseTemplate fuel loc inputs (description.withPart input.render) rest
      else
        parseTemplate fuel loc inputs
          (description.withPart (String.mk ((c :: r).takeWhile
            (fun x => ¬ (x = '$' ∨ x = ']' ∨ x = '|')))))
          ((c :: r).dropWhile (fun x => ¬ (x = '$' ∨ x = ']' ∨ x = '|')))

/-- The source's `parseConditional`: scan to `[`, parse the yes template,
scan to `|`, parse the no template, scan to `]`, and select by `yes`.  Each
missing delimiter returns the source's `undefined` (the inner `none`). -/
def parseConditional : Nat → Bool → Locale → List TemplateInput → List Char →
    Option (Option Description × List Char)
  | 0, _, _, _, _ => none
  | fuel + 1, yes, loc, inputs, t =>
    match t.dropWhile (fun x => ¬ x = '[') with
    | [] => some (none, [])
    | _ :: r2 =>
      match parseTemplate fuel loc inputs ⟨[]⟩ r2 with
      | none => none
      | some (none, r') => some (none, r')
      | some (some yesDescription, r3) =>
        match r3.dropWhile (fun x => ¬ x = '|') with
        | [] => some (none, [])
        | _ :: r5 =>
          match parseTemplate fuel loc inputs ⟨[]⟩ r5 with
          | none => none
          | some (none, r') => some (none, r')
          | some (some noDescription, r6) =>
            match r6.dropWhile (fun x => ¬ x = ']') with
            | [] => some (none, [])
            | _ :: r8 => some (some (if yes then yesDescription else noDescription), r8)

end

/-- The source's `concretizeOrUndefined`: empty or `$?` templates yield the
locale's unwritten placeholder, otherwise the template is parsed. -/
def concretizeOrUndefined (loc : Locale) (template : String)
    (inputs : List TemplateInput) : Option Description :=
  if template = "" ∨ template = "$?" then some (Description.as loc.unwritten)
  else
    match parseTemplate (template.toList.length + 1) loc inputs ⟨[]⟩ template.toList with
    | some (res, _) => res
    | none => none

/-- The source's `concretize`: `concretizeOrUndefined(...) ?? Description.as('-')`. -/
def concretize (loc : Locale) (template : String) (inputs : List TemplateInput) :
    Description :=
  (concretizeOrUndefined loc template inputs).getD (Description.as "-")

/-- A concrete locale used to evaluate the template engine on closed inputs. -/
def testLocale : Locale := ⟨"tbd", fun _ => none⟩

/-! ## Part 2: concept index stream catalog -/

/-- The names of the built-in stream definitions imported by `ConceptIndex`. -/
inductive StreamName where
  | time
  | random
  | keyboard
  | mousePosition
  | mouseButton
  | microphone
deriving DecidableEq

/-- The concepts assembled by `ConceptIndex.make`: project structures,
project functions, project binds, node constructs, native concepts, output
concepts, and one `StreamConcept` per built-in stream definition.  Concepts
other than stream concepts are identified by an opaque index, since only
the stream catalog matters for the claims. -/
inductive Concept where
  | structureC (id : Nat)
  | functionC (id : Nat)
  | bindC (id : Nat)
  | nodeC (id : Nat)
  | nativeC (id : Nat)
  | outputC (id : Nat)
  | streamC (s : StreamName)
deriving DecidableEq

/-- The `instanceof StreamConcept` test. -/
def Concept.isStream : Concept → Bool
  | .streamC _ => true
  | _ => false

/-- The concept list built by `ConceptIndex.make`: the project, construct,
native and output concepts (whatever they are), followed by the `streams`
list, which the source writes as exactly
`[Time, MouseButton, MousePosition, Keyboard, Microphone, Random]`. -/
def conceptIndexMake (projectStructures projectFunctions projectBinds constructs
    native output : List Nat) : List Concept :=
  projectStructures.map .structureC ++ projectFunctions.map .functionC ++
    projectBinds.map .bindC ++ constructs.map .nodeC ++ native.map .nativeC ++
    output.map .outputC ++
    [.streamC .time, .streamC .mouseButton, .streamC .mousePosition,
      .streamC .keyboard, .streamC .microphone, .streamC .random]

/-! ## Part 3: model of the reactive evaluation engine

The evaluator, stream registry and reactive scheduler of the repository are
not among the given sources (only their tests are), so this section is
modelled from the specification: an immutable AST, a per-pass stream
snapshot, reaction caches keyed by node, and a recomputation policy under
which a subtree with no stale stream returns its cached `Value` without
re-executing its `Step`s. -/

/-- Modelled from the spec: tagged runtime `Value`s — numbers (optionally
carrying the millisecond duration unit emitted by the `time` stream),
booleans, and exception-values. -/
inductive Val where
  | num (n : Int) (ms : Bool)
  | boolV (b : Bool)
  | exn
deriving DecidableEq

/-- Modelled from the spec: the binary operations appearing in the spec's
scenarios (`+`, `·`, `>`, `%`). -/
inductive Op where
  | add
  | mul
  | gt
  | mod
deriving DecidableEq

/-- Modelled from the spec: applying a binary operation to two `Value`s;
non-numeric operands yield an exception-value, since exceptions are
ordinary values. -/
def applyOp : Op → Val → Val → Val
  | .add, .num a u, .num b w => .num (a + b) (u || w)
  | .mul, .num a u, .num b w => .num (a * b) (u || w)
  | .gt, .num a _, .num b _ => .boolV (decide (b < a))
  | .mod, .num a u, .num b _ => .num (a % b) u
  | _, _, _ => .exn

/-- Modelled from the spec: a stream event, i.e. one emission of a `Value`
on a named built-in stream. -/
structure Event where
  s : StreamName
  v : Val
deriving DecidableEq

/-- Modelled from the spec: the immutable AST — literal values, binary
operations over operands evaluated left to right, stream reads such as
`time()`, and reaction expressions `initial … next`. -/
inductive Expr where
  | lit (v : Val)
  | binop (op : Op) (l r : Expr)
  | streamRead (s : StreamName)
  | reaction (i n : Expr)
deriving DecidableEq

/-- Modelled from the spec: the streams a subtree subscribes to — the
subscription set used to mark subscribers stale. -/
def streamsOf : Expr → List StreamName
  | .lit _ => []
  | .binop _ l r => streamsOf l ++ streamsOf r
  | .streamRead s => [s]
  | .reaction i n => streamsOf i ++ streamsOf n

/-- Modelled from the spec: the default `Value` a stream has before its
first emission (the `time` stream starts at `0ms`). -/
def defaultVal (s : StreamName) : Val := .num 0 (s == .time)

/-- Modelled from the spec: the latest `Value` of stream `s` in event
history `h`, i.e. the point-in-time snapshot entry for `s`. -/
def latestOf (h : List Event) (s : StreamName) : Val :=
  h.foldl (fun acc ev => if ev.s == s then ev.v else acc) (defaultVal s)

/-- Modelled from the spec: whether event `ev` lands on a stream that
subtree `e` subscribes to. -/
def touches (ev : Event) (e : Expr) : Bool :=
  (streamsOf e).any (fun x => x == ev.s)

/-- Modelled from the spec: the denotational value of an expression after a
given prefix of stream history.  A reaction shows its initial value until
the first event on a stream of its `next` subtree, and the value of `next`
afterwards. -/
def evalHist : Expr → List Event → Val
  | .lit v, _ => v
  | .binop op l r, h => applyOp op (evalHist l h) (evalHist r h)
  | .streamRead s, h => latestOf h s
  | .reaction i n, h =>
    if h.any (fun ev => touches ev n) then evalHist n h else evalHist i h

/-- Modelled from the spec: the evaluator's cached state for a subtree — the
AST node annotated with its last committed `Value` (`cv`), how many times
its `Step`s have been executed (`cnt`), and for reactions whether a stream
of the `next` subtree has ever ticked (`ticked`). -/
inductive AExpr where
  | lit (v : Val) (cv : Val) (cnt : Nat)
  | binop (op : Op) (l r : AExpr) (cv : Val) (cnt : Nat)
  | streamRead (s : StreamName) (cv : Val) (cnt : Nat)
  | reaction (i n : AExpr) (ticked : Bool) (cv : Val) (cnt : Nat)
deriving DecidableEq

/-- The cached `Value` stored at the root of an annotated subtree. -/
def AExpr.cval : AExpr → Val
  | .lit _ cv _ => cv
  | .binop _ _ _ cv _ => cv
  | .streamRead _ cv _ => cv
  | .reaction _ _ _ cv _ => cv

/-- The execution counter stored at the root of an annotated subtree. -/
def AExpr.cnt : AExpr → Nat
  | .lit _ _ c => c
  | .binop _ _ _ _ c => c
  | .streamRead _ _ c => c
  | .reaction _ _ _ _ c => c

/-- Forgetting the cached state gives back the immutable AST. -/
def AExpr.erase : AExpr → Expr
  | .lit v _ _ => .lit v
  | .binop op l r _ _ => .binop op l.erase r.erase
  | .streamRead s _ _ => .streamRead s
  | .reaction i n _ _ _ => .reaction i.erase n.erase

/-- Modelled from the spec: the first evaluation pass, executing every
node's `Step`s once against the initial stream snapshot. -/
def initPass : Expr → (StreamName → Val) → AExpr
  | .lit v, _ => .lit v v 1
  | .binop op l r, snap =>
    let l' := initPass l snap
    let r' := initPass r snap
    .binop op l' r' (applyOp op l'.cval r'.cval) 1
  | .streamRead s, snap => .streamRead s (snap s) 1
  | .reaction i n, snap =>
    let i' := initPass i snap
    let n' := initPass n snap
    .reaction i' n' false i'.cval 1

/-- Modelled from the spec: one incremental evaluation pass.  Walking the
AST top-down, any subtree none of whose streams is stale short-circuits by
returning its cached `Value` directly, leaving its execution counter
untouched; only paths containing a stale subscriber re-execute.  A stream
read consults the pass's snapshot.  A stale reaction re-evaluates its
`next` subtree when one of `next`'s streams ticked, and otherwise keeps the
value it already committed. -/
def pass (a : AExpr) (snap : StreamName → Val) (stale : StreamName → Bool) : AExpr :=
  if (streamsOf a.erase).any stale = false then a
  else
    match a with
    | .lit v _ c => .lit v v (c + 1)
    | .binop op l r _ c =>
      let l' := pass l snap stale
      let r' := pass r snap stale
      .binop op l' r' (applyOp op l'.cval r'.cval) (c + 1)
    | .streamRead s _ c => .streamRead s (snap s) (c + 1)
    | .reaction i n ticked cv c =>
      if (streamsOf n.erase).any stale then
        let n' := pass n snap stale
        .reaction i n' true n'.cval (c + 1)
      else if ticked then
        .reaction i n ticked cv (c + 1)
      else
        let i' := pass i snap stale
        .reaction i' n false i'.cval (c + 1)

/-- The stale-marking produced by recording one event: exactly the event's
stream is stale for the next pass. -/
def tickStale (ev : Event) : StreamName → Bool := fun s => s == ev.s

/-- The committed root `Value`s of the passes triggered by a list of
events, starting from cached state `a` whose history so far is `h`. -/
def runVals : AExpr → List Event → List Event → List Val
  | _, _, [] => []
  | a, h, ev :: rest =>
    let a' := pass a (latestOf (h ++ [ev])) (tickStale ev)
    a'.cval :: runVals a' (h ++ [ev]) rest

/-- The full sequence of committed root `Value`s of a program: the initial
pass followed by one pass per recorded stream event. -/
def committedList (e : Expr) (evs : List Event) : List Val :=
  let a0 := initPass e (latestOf [])
  a0.cval :: runVals a0 [] evs

/-- The from-scratch reference semantics of the committed value sequence:
the denotational value of the program at each successive event prefix. -/
def specVals (e : Expr) (h : List Event) : List Event → List Val
  | [] => []
  | ev :: rest => evalHist e (h ++ [ev]) :: specVals e (h ++ [ev]) rest

/-- One scheduler transition: fold a recorded event into the history and run
the pass it triggers against the snapshot of the extended history. -/
def stepState (p : AExpr × List Event) (ev : Event) : AExpr × List Event :=
  (pass p.1 (latestOf (p.2 ++ [ev])) (tickStale ev), p.2 ++ [ev])

/-- The evaluator's cached state together with its recorded history after a
list of stream events. -/
def runState (e : Expr) (evs : List Event) : AExpr × List Event :=
  evs.foldl stepState (initPass e (latestOf []), [])

/-- The cached subtree of the right operand of a binary operation. -/
def rightChild : AExpr → Option AExpr
  | .binop _ _ r _ _ => some r
  | _ => none

/-- The execution counter of the `next` subtree of a reaction node. -/
def reactionNextCnt : AExpr → Nat
  | .reaction _ n _ _ _ => n.cnt
  | _ => 0

/-- The cache invariant: every cached `Value` in the annotated tree is the
denotational value of its node at the current history, and every reaction's
`ticked` flag records whether a stream of its `next` subtree has ticked. -/
def Inv : AExpr → List Event → Prop
  | .lit v cv _, _ => cv = v
  | .binop op l r cv _, h => Inv l h ∧ Inv r h ∧ cv = applyOp op l.cval r.cval
  | .streamRead s cv _, h => cv = latestOf h s
  | .reaction i n ticked cv _, h =>
    ticked = h.any (fun ev => touches ev n.erase) ∧
      Inv n h ∧ (ticked = false → Inv i h) ∧
      cv = (if ticked then n.cval else i.cval)

/-- Modelled from the spec: the scheduler's view of stream history during a
pass — `hist` is the history frozen into the pass's snapshot at pass start,
`pending` holds events recorded after the pass started, to be folded into
the next pass. -/
structure Sched where
  hist : List Event
  pending : List Event

/-- Modelled from the spec: recording a stream event while a pass is active
appends it to the pending queue and leaves the pass's snapshot alone. -/
def Sched.record (st : Sched) (ev : Event) : Sched :=
  ⟨st.hist, st.pending ++ [ev]⟩

/-- The committed value of the active pass: it reads only the history
snapshot taken once at pass start, never the pending queue. -/
def passValue (e : Expr) (st : Sched) : Val := evalHist e st.hist

/-- Modelled from the spec: finishing a pass folds all coalesced pending
events into the history the next pass will snapshot. -/
def finishPass (st : Sched) : Sched := ⟨st.hist ++ st.pending, []⟩

/-- The `time() > 0ms` program of the stream scenario. -/
def timeGtZero : Expr := .binop .gt (.streamRead .time) (.lit (.num 0 true))

/-- The `tick: time()  a: 1 … tick % 2` reaction program of the reaction
scenario, with the `tick` reference inlined. -/
def tickModReaction : Expr :=
  .reaction (.lit (.num 1 false)) (.binop .mod (.streamRead .time) (.lit (.num 2 false)))

/-- An emission of `v` milliseconds on the `time` stream. -/
def timeTick (v : Int) : Event := ⟨.time, .num v true⟩

/-! ## Part 4: step budget and operator chains -/

/-- Modelled from the spec: the terminal state of a pass — a committed
`Value`, or the `NonTermination` exception after the step budget is
exhausted. -/
inductive PassResult where
  | done (v : Val)
  | nonTermination
deriving DecidableEq

/-- Modelled from the spec: executing a pass one `Step` per tick under a
configurable step budget.  `step` maps an evaluator state either to the
next state or to a final `Value`; the result is paired with the number of
steps actually executed. -/
def runBudget {S : Type} (step : S → S ⊕ Val) : Nat → S → PassResult × Nat
  | 0, _ => (.nonTermination, 0)
  | b + 1, s =>
    match step s with
    | .inr v => (.done v, 1)
    | .inl s' =>
      let p := runBudget step b s'
      (p.1, p.2 + 1)

/-- Modelled from the spec: the operators of a source-level binary operator
chain. -/
inductive AOp where
  | add
  | mul
deriving DecidableEq

/-- Applying a chain operator to two numbers. -/
def AOp.apply : AOp → Int → Int → Int
  | .add, a, b => a + b
  | .mul, a, b => a * b

/-- Modelled from the spec: evaluation of a binary operator chain
`first op₁ b₁ op₂ b₂ …` strictly in source left-to-right order, as the
documentation of the `OrderOfOperations` conflict describes ("All operators
evalute left to right, unlike math"). -/
def evalChain (first : Int) (rest : List (AOp × Int)) : Int :=
  rest.foldl (fun acc p => p.1.apply acc p.2) first

/-- Conventional arithmetic-precedence evaluation of the same chain, stated
from the spec's words only to contrast with `evalChain`. -/
def evalPrecedence : Int → List (AOp × Int) → Int
  | first, [] => first
  | first, (.mul, b) :: r => evalPrecedence (first * b) r
  | first, (.add, b) :: r => first + evalPrecedence b r

/-- The AST a binary operator chain parses to: left-nested binary
operations, so that operands are taken strictly in source order. -/
def chainExpr (first : Val) (rest : List (Op × Val)) : Expr :=
  rest.foldl (fun e p => .binop p.1 e (.lit p.2)) (.lit first)

/-! ## Lemmas about the template engine -/

theorem dropWhile_len_le {α : Type} (p : α → Bool) (l : List α) :
    (l.dropWhile p).length ≤ l.length := by
  induction l with
  | nil => simp
  | cons a l ih =>
    rw [List.dropWhile_cons]
    split
    · exact Nat.le_trans ih (by simp)
    · simp

theorem takeWhile_dropWhile_len {α : Type} (p : α → Bool) (l : List α)
    (h : l.takeWhile p ≠ []) : (l.dropWhile p).length < l.length := by
  induction l with
  | nil => simp at h
  | cons a l ih =>
    rw [List.dropWhile_cons]
    rw [List.takeWhile_cons] at h
    split
    · have := dropWhile_len_le p l
      simp
      omega
    · next hpa => rw [if_neg hpa] at h; simp at h

/-- Fuel `t.length + 1` always suffices for the template parser: the source
functions terminate because every loop iteration and every recursive call
consumes at least one character of the template, and the remaining text
never grows. -/
theorem parse_fuel_sufficient : ∀ fuel : Nat,
    (∀ (loc : Locale) (inputs : List TemplateInput) (d : Description) (t : List Char),
      t.length < fuel →
      ∃ res r, parseTemplate fuel loc inputs d t = some (res, r) ∧ r.length ≤ t.length) ∧
    (∀ (yes : Bool) (loc : Locale) (inputs : List TemplateInput) (t : List Char),
      t.length < fuel →
      ∃ res r, parseConditional fuel yes loc inputs t = some (res, r) ∧ r.length ≤ t.length) := by
  intro fuel
  induction fuel with
  | zero =>
    exact ⟨fun _ _ _ t ht => absurd ht (by omega),
      fun _ _ _ t ht => absurd ht (by omega)⟩
  | succ fuel ih =>
    obtain ⟨ihT, ihC⟩ := ih
    constructor
    · intro loc inputs d t ht
      cases t with
      | nil => exact ⟨some d, [], rfl, Nat.le_refl _⟩
      | cons c r =>
        have hr : r.length < fuel := by simp at ht; omega
        simp only [parseTemplate]
        split
        · exact ⟨some d, c :: r, rfl, Nat.le_refl _⟩
        split
        · obtain ⟨res, r', heq, hle⟩ := ihT loc inputs (d.withPart "$") r.tail
            (by have := List.length_tail r; omega)
          exact ⟨res, r', heq, by have := List.length_tail r; simp; omega⟩
        split
        · obtain ⟨res, r', heq, hle⟩ := ihT loc inputs (d.withPart "[") r.tail
            (by have := List.length_tail r; omega)
          exact ⟨res, r', heq, by have := List.length_tail r; simp; omega⟩
        split
        · obtain ⟨res, r', heq, hle⟩ := ihT loc inputs (d.withPart "]") r.tail
            (by have := List.length_tail r; omega)
          exact ⟨res, r', heq, by have := List.length_tail r; simp; omega⟩
        split
        · obtain ⟨res, r', heq, hle⟩ := ihT loc inputs (d.withPart "|") r.tail
            (by have := List.length_tail r; omega)
          exact ⟨res, r', heq, by have := List.length_tail r; simp; omega⟩
        split
        · -- the `$` branch
          split
          · -- no digits: terminology word or bare `$`
            split
            · obtain ⟨res, r', heq, hle⟩ := ihT loc inputs d r hr
              exact ⟨res, r', heq, by simp; omega⟩
            · have hdw : (r.dropWhile isWordChar).length ≤ r.length :=
                dropWhile_len_le _ r
              obtain ⟨res, r', heq, hle⟩ := ihT loc inputs _ (r.dropWhile isWordChar)
                (by omega)
              exact ⟨res, r', heq, by simp; omega⟩
          · -- digits matched
            have hrest : (r.dropWhile Char.isDigit).length ≤ r.length :=
              dropWhile_len_le _ r
            split
            · -- conditional `?? [...]`
              have hr2 : ((r.dropWhile Char.isDigit).dropWhile isSpaceChar).length ≤
                  r.length := Nat.le_trans (dropWhile_len_le _ _) hrest
              have hdrop : (((r.dropWhile Char.isDigit).dropWhile isSpaceChar).drop 2).length ≤
                  r.length := by
                rw [List.length_drop]; omega
              obtain ⟨resC, rC, heqC, hleC⟩ := ihC (TemplateInput.eqTrue _ || !TemplateInput.isUndef _)
                loc inputs (((r.dropWhile Char.isDigit).dropWhile isSpaceChar).drop 2)
                (by omega)
              rw [heqC]
              cases resC with
              | none => exact ⟨none, rC, rfl, by simp; omega⟩
              | some value =>
                obtain ⟨res, r', heq, hle⟩ := ihT loc inputs (d.withDesc value) rC
                  (by omega)
                exact ⟨res, r', heq, by simp; omega⟩
            · -- plain input insertion
              obtain ⟨res, r', heq, hle⟩ := ihT loc inputs _ (r.dropWhile Char.isDigit)
                (by omega)
              exact ⟨res, r', heq, by simp; omega⟩
        · -- plain text run
          next h1 h2 h3 h4 h5 h6 =>
          have hpc : decide (¬ (c = '$' ∨ c = ']' ∨ c = '|')) = true :=
            decide_eq_true (by
              push_neg
              exact ⟨h6, fun hc => h1 (Or.inr (Or.inl hc)), fun hc => h1 (Or.inl hc)⟩)
          have hstep : (c :: r).dropWhile (fun x => ¬ (x = '$' ∨ x = ']' ∨ x = '|')) =
              r.dropWhile (fun x => ¬ (x = '$' ∨ x = ']' ∨ x = '|')) := by
            simp only [List.dropWhile_cons, hpc, if_true]
          have hlen : (r.dropWhile (fun x => ¬ (x = '$' ∨ x = ']' ∨ x = '|'))).length ≤
              r.length := dropWhile_len_le _ r
          rw [hstep]
          obtain ⟨res, r', heq, hle⟩ := ihT loc inputs _
            (r.dropWhile (fun x => ¬ (x = '$' ∨ x = ']' ∨ x = '|'))) (by omega)
          exact ⟨res, r', heq, by simp; omega⟩
    · intro yes loc inputs t ht
      simp only [parseConditional]
      split
      · exact ⟨none, [], rfl, by simp⟩
      · next x r2 hdw =>
        have hlen2 : r2.length < t.length := by
          have h1 : (x :: r2).length ≤ t.length := by
            rw [← hdw]; exact dropWhile_len_le _ t
          simp at h1; omega
        obtain ⟨resY, r3, heqY, hle3⟩ := ihT loc inputs ⟨[]⟩ r2 (by omega)
        cases resY with
        | none =>
          simp only [heqY]
          exact ⟨none, r3, rfl, by omega⟩
        | some yesDescription =>
          simp only [heqY]
          cases hdw5 : r3.dropWhile (fun x => ¬ x = '|') with
          | nil => exact ⟨none, [], rfl, by simp⟩
          | cons y r5 =>
            have hlen5 : r5.length < r3.length + 1 := by
              have h1 : (y :: r5).length ≤ r3.length := by
                rw [← hdw5]; exact dropWhile_len_le _ r3
              simp at h1; omega
            obtain ⟨resN, r6, heqN, hle6⟩ := ihT loc inputs ⟨[]⟩ r5 (by omega)
            cases resN with
            | none =>
              simp only [heqN]
              exact ⟨none, r6, rfl, by omega⟩
            | some noDescription =>
              simp only [heqN]
              cases hdw8 : r6.dropWhile (fun x => ¬ x = ']') with
              | nil => exact ⟨none, [], rfl, by simp⟩
              | cons z r8 =>
                have hlen8 : r8.length < r6.length + 1 := by
                  have h1 : (z :: r8).length ≤ r6.length := by
                    rw [← hdw8]; exact dropWhile_len_le _ r6
                  simp at h1; omega
                exact ⟨some (if yes then yesDescription else noDescription), r8, rfl,
                  by omega⟩

/-! ## Lemmas about the reactive evaluation model -/

theorem latestOf_append (h : List Event) (ev : Event) (s : StreamName) :
    latestOf (h ++ [ev]) s = if ev.s == s then ev.v else latestOf h s := by
  simp [latestOf, List.foldl_append]

theorem touches_binop (ev : Event) (op : Op) (l r : Expr) :
    touches ev (.binop op l r) = (touches ev l || touches ev r) := by
  simp [touches, streamsOf, List.any_append]

theorem touches_reaction (ev : Event) (i n : Expr) :
    touches ev (.reaction i n) = (touches ev i || touches ev n) := by
  simp [touches, streamsOf, List.any_append]

/-- Frame property of the reference semantics: an event on a stream a
subtree does not subscribe to leaves the subtree's value unchanged. -/
theorem evalHist_frame (e : Expr) (h : List Event) (ev : Event)
    (hev : touches ev e = false) : evalHist e (h ++ [ev]) = evalHist e h := by
  induction e with
  | lit v => rfl
  | binop op l r ihl ihr =>
    rw [touches_binop, Bool.or_eq_false_iff] at hev
    simp only [evalHist]
    rw [ihl hev.1, ihr hev.2]
  | streamRead s =>
    have hne : (ev.s == s) = false := by
      simp only [touches, streamsOf, List.any_cons, List.any_nil,
        Bool.or_false] at hev
      rw [beq_eq_false_iff_ne] at hev ⊢
      exact fun hc => hev hc.symm
    simp only [evalHist]
    rw [latestOf_append, hne]
    simp
  | reaction i n ihi ihn =>
    rw [touches_reaction, Bool.or_eq_false_iff] at hev
    simp only [evalHist]
    rw [List.any_append]
    simp only [List.any_cons, List.any_nil, Bool.or_false, hev.2, Bool.or_false]
    split
    · exact ihn hev.2
    · exact ihi hev.1

/-- Under the cache invariant, the cached root value is the reference value. -/
theorem cval_of_inv : ∀ (a : AExpr) (h : List Event), Inv a h →
    a.cval = evalHist a.erase h := by
  intro a
  induction a with
  | lit v cv c => intro h hi; exact hi
  | binop op l r cv c ihl ihr =>
    intro h hi
    obtain ⟨h1, h2, h3⟩ := hi
    simp only [AExpr.cval, AExpr.erase, evalHist]
    rw [h3, ihl h h1, ihr h h2]
  | streamRead s cv c => intro h hi; exact hi
  | reaction i n t cv c ihi ihn =>
    intro h hi
    obtain ⟨ht, hn, hi', hcv⟩ := hi
    simp only [AExpr.cval, AExpr.erase, evalHist]
    rw [← ht, hcv]
    cases t with
    | false =>
      rw [if_neg (by simp), if_neg (by simp)]
      exact ihi h (hi' rfl)
    | true =>
      rw [if_pos rfl, if_pos rfl]
      exact ihn h hn

/-- The cache invariant is preserved by events on streams the subtree does
not subscribe to. -/
theorem inv_frame : ∀ (a : AExpr) (h : List Event) (ev : Event),
    touches ev a.erase = false → Inv a h → Inv a (h ++ [ev]) := by
  intro a
  induction a with
  | lit v cv c => intro h ev _ hi; exact hi
  | binop op l r cv c ihl ihr =>
    intro h ev hev hi
    simp only [AExpr.erase] at hev
    rw [touches_binop, Bool.or_eq_false_iff] at hev
    obtain ⟨h1, h2, h3⟩ := hi
    exact ⟨ihl h ev hev.1 h1, ihr h ev hev.2 h2, h3⟩
  | streamRead s cv c =>
    intro h ev hev hi
    have hne : (ev.s == s) = false := by
      simp only [AExpr.erase, touches, streamsOf, List.any_cons, List.any_nil,
        Bool.or_false] at hev
      rw [beq_eq_false_iff_ne] at hev ⊢
      exact fun hc => hev hc.symm
    show cv = latestOf (h ++ [ev]) s
    rw [latestOf_append, hne]
    simpa using hi
  | reaction i n t cv c ihi ihn =>
    intro h ev hev hi
    simp only [AExpr.erase] at hev
    rw [touches_reaction, Bool.or_eq_false_iff] at hev
    obtain ⟨ht, hn, hi', hcv⟩ := hi
    refine ⟨?_, ihn h ev hev.2 hn, fun htf => ihi h ev hev.1 (hi' htf), hcv⟩
    rw [List.any_append]
    simp only [List.any_cons, List.any_nil, Bool.or_false, hev.2, Bool.or_false]
    exact ht

theorem pass_not_stale (a : AExpr) (snap : StreamName → Val)
    (stale : StreamName → Bool) (h : (streamsOf a.erase).any stale = false) :
    pass a snap stale = a := by
  rw [pass.eq_def, if_pos h]

theorem pass_stale_lit (v cv : Val) (c : Nat) (snap : StreamName → Val)
    (stale : StreamName → Bool)
    (h : ¬ (streamsOf (AExpr.lit v cv c).erase).any stale = false) :
    pass (.lit v cv c) snap stale = .lit v v (c + 1) := by
  rw [pass.eq_def, if_neg h]

theorem pass_stale_binop (op : Op) (l r : AExpr) (cv : Val) (c : Nat)
    (snap : StreamName → Val) (stale : StreamName → Bool)
    (h : ¬ (streamsOf (AExpr.binop op l r cv c).erase).any stale = false) :
    pass (.binop op l r cv c) snap stale =
      .binop op (pass l snap stale) (pass r snap stale)
        (applyOp op (pass l snap stale).cval (pass r snap stale).cval) (c + 1) := by
  rw [pass.eq_def, if_neg h]

theorem pass_stale_stream (s : StreamName) (cv : Val) (c : Nat)
    (snap : StreamName → Val) (stale : StreamName → Bool)
    (h : ¬ (streamsOf (AExpr.streamRead s cv c).erase).any stale = false) :
    pass (.streamRead s cv c) snap stale = .streamRead s (snap s) (c + 1) := by
  rw [pass.eq_def, if_neg h]

theorem pass_stale_reaction (i n : AExpr) (t : Bool) (cv : Val) (c : Nat)
    (snap : StreamName → Val) (stale : StreamName → Bool)
    (h : ¬ (streamsOf (AExpr.reaction i n t cv c).erase).any stale = false) :
    pass (.reaction i n t cv c) snap stale =
      if (streamsOf n.erase).any stale then
        .reaction i (pass n snap stale) true (pass n snap stale).cval (c + 1)
      else if t then .reaction i n t cv (c + 1)
      else .reaction (pass i snap stale) n false (pass i snap stale).cval (c + 1) := by
  rw [pass.eq_def, if_neg h]

theorem erase_pass (a : AExpr) (snap : StreamName → Val)
    (stale : StreamName → Bool) : (pass a snap stale).erase = a.erase := by
  induction a with
  | lit v cv c =>
    by_cases hc : (streamsOf (AExpr.lit v cv c).erase).any stale = false
    · rw [pass_not_stale _ _ _ hc]
    · rw [pass_stale_lit _ _ _ _ _ hc]
      rfl
  | binop op l r cv c ihl ihr =>
    by_cases hc : (streamsOf (AExpr.binop op l r cv c).erase).any stale = false
    · rw [pass_not_stale _ _ _ hc]
    · rw [pass_stale_binop _ _ _ _ _ _ _ hc]
      simp only [AExpr.erase]
      rw [ihl, ihr]
  | streamRead s cv c =>
    by_cases hc : (streamsOf (AExpr.streamRead s cv c).erase).any stale = false
    · rw [pass_not_stale _ _ _ hc]
    · rw [pass_stale_stream _ _ _ _ _ hc]
      rfl
  | reaction i n t cv c ihi ihn =>
    by_cases hc : (streamsOf (AExpr.reaction i n t cv c).erase).any stale = false
    · rw [pass_not_stale _ _ _ hc]
    · rw [pass_stale_reaction _ _ _ _ _ _ _ hc]
      split
      · simp only [AExpr.erase]
        rw [ihn]
      · split
        · rfl
        · simp only [AExpr.erase]
          rw [ihi]

/-- The cache invariant is preserved by an incremental pass over the event
that was just recorded. -/
theorem pass_inv : ∀ (a : AExpr) (h : List Event) (ev : Event), Inv a h →
    Inv (pass a (latestOf (h ++ [ev])) (tickStale ev)) (h ++ [ev]) := by
  intro a
  induction a with
  | lit v cv c =>
    intro h ev hi
    by_cases hc : (streamsOf (AExpr.lit v cv c).erase).any (tickStale ev) = false
    · rw [pass_not_stale _ _ _ hc]
      exact inv_frame _ h ev hc hi
    · rw [pass_stale_lit _ _ _ _ _ hc]
      exact rfl
  | binop op l r cv c ihl ihr =>
    intro h ev hi
    by_cases hc : (streamsOf (AExpr.binop op l r cv c).erase).any (tickStale ev) = false
    · rw [pass_not_stale _ _ _ hc]
      exact inv_frame _ h ev hc hi
    · rw [pass_stale_binop _ _ _ _ _ _ _ hc]
      obtain ⟨h1, h2, h3⟩ := hi
      exact ⟨ihl h ev h1, ihr h ev h2, rfl⟩
  | streamRead s cv c =>
    intro h ev hi
    by_cases hc : (streamsOf (AExpr.streamRead s cv c).erase).any (tickStale ev) = false
    · rw [pass_not_stale _ _ _ hc]
      exact inv_frame _ h ev hc hi
    · rw [pass_stale_stream _ _ _ _ _ hc]
      exact rfl
  | reaction i n t cv c ihi ihn =>
    intro h ev hi
    by_cases hc : (streamsOf (AExpr.reaction i n t cv c).erase).any (tickStale ev) = false
    · rw [pass_not_stale _ _ _ hc]
      exact inv_frame _ h ev hc hi
    · rw [pass_stale_reaction _ _ _ _ _ _ _ hc]
      obtain ⟨ht, hn, hi', hcv⟩ := hi
      by_cases hnn : (streamsOf n.erase).any (tickStale ev) = true
      · rw [if_pos hnn]
        refine ⟨?_, ihn h ev hn, by simp, by simp [AExpr.cval]⟩
        rw [erase_pass, List.any_append]
        simp only [List.any_cons, List.any_nil, Bool.or_false]
        have htn : touches ev n.erase = true := hnn
        rw [htn, Bool.or_true]
      · rw [if_neg hnn]
        have hnf : touches ev n.erase = false := Bool.not_eq_true _ |>.mp hnn
        cases t with
        | true =>
          rw [if_pos rfl]
          refine ⟨?_, inv_frame n h ev hnf hn, ?_, hcv⟩
          · rw [List.any_append]
            simp only [List.any_cons, List.any_nil, Bool.or_false, hnf,
              Bool.or_false]
            exact ht
          · intro htf
            cases htf
        | false =>
          rw [if_neg (by simp)]
          refine ⟨?_, inv_frame n h ev hnf hn, fun _ => ihi h ev (hi' rfl), rfl⟩
          rw [List.any_append]
          simp only [List.any_cons, List.any_nil, Bool.or_false, hnf,
            Bool.or_false]
          exact ht

theorem pass_inv_cval (a : AExpr) (h : List Event) (ev : Event) (hi : Inv a h) :
    (pass a (latestOf (h ++ [ev])) (tickStale ev)).cval = evalHist a.erase (h ++ [ev]) := by
  rw [cval_of_inv _ _ (pass_inv a h ev hi), erase_pass]

theorem erase_initPass (e : Expr) (snap : StreamName → Val) :
    (initPass e snap).erase = e := by
  induction e with
  | lit v => rfl
  | binop op l r ihl ihr => simp only [initPass, AExpr.erase]; rw [ihl, ihr]
  | streamRead s => rfl
  | reaction i n ihi ihn => simp only [initPass, AExpr.erase]; rw [ihi, ihn]

theorem init_inv (e : Expr) : Inv (initPass e (latestOf [])) [] := by
  induction e with
  | lit v => exact rfl
  | binop op l r ihl ihr => exact ⟨ihl, ihr, rfl⟩
  | streamRead s => exact rfl
  | reaction i n ihi ihn => exact ⟨rfl, ihn, fun _ => ihi, rfl⟩

/-- The committed values of the incremental machine coincide with the
from-scratch reference semantics at every event prefix. -/
theorem runVals_eq : ∀ (rest : List Event) (a : AExpr) (h : List Event),
    Inv a h → runVals a h rest = specVals a.erase h rest := by
  intro rest
  induction rest with
  | nil => intro a h _; rfl
  | cons ev rest ih =>
    intro a h hi
    simp only [runVals, specVals]
    rw [pass_inv_cval a h ev hi]
    have htail := ih _ _ (pass_inv a h ev hi)
    rw [erase_pass] at htail
    rw [htail]

theorem committedList_eq (e : Expr) (evs : List Event) :
    committedList e evs = evalHist e [] :: specVals e [] evs := by
  simp only [committedList]
  rw [runVals_eq evs _ [] (init_inv e), erase_initPass]
  have h0 : (initPass e (latestOf [])).cval = evalHist e [] := by
    rw [cval_of_inv _ _ (init_inv e), erase_initPass]
  rw [h0]

theorem specVals_take (e : Expr) : ∀ (l h : List Event) (k : Nat),
    specVals e h (l.take k) = (specVals e h l).take k := by
  intro l
  induction l with
  | nil => intro h k; simp [specVals]
  | cons ev rest ih =>
    intro h k
    cases k with
    | zero => rfl
    | succ k =>
      simp only [List.take_succ_cons, specVals]
      rw [ih]

theorem specVals_append_one (e : Expr) : ∀ (l h : List Event) (ev : Event),
    specVals e h (l ++ [ev]) = specVals e h l ++ [evalHist e (h ++ (l ++ [ev]))] := by
  intro l
  induction l with
  | nil => intro h ev; simp [specVals]
  | cons x rest ih =>
    intro h ev
    simp only [List.cons_append, specVals, List.append_eq]
    rw [ih]
    simp [List.append_assoc]

theorem committedList_append_one (e : Expr) (l : List Event) (ev : Event) :
    committedList e (l ++ [ev]) = committedList e l ++ [evalHist e (l ++ [ev])] := by
  rw [committedList_eq, committedList_eq, specVals_append_one]
  simp

theorem foldl_stepState_erase : ∀ (l : List Event) (p : AExpr × List Event),
    (l.foldl stepState p).1.erase = p.1.erase := by
  intro l
  induction l with
  | nil => intro p; rfl
  | cons x rest ih =>
    intro p
    rw [List.foldl_cons, ih]
    exact erase_pass _ _ _

theorem runState_erase (e : Expr) (evs : List Event) :
    (runState e evs).1.erase = e := by
  rw [runState, foldl_stepState_erase]
  exact erase_initPass _ _

theorem sched_record_foldl : ∀ (evs : List Event) (st : Sched),
    evs.foldl Sched.record st = ⟨st.hist, st.pending ++ evs⟩ := by
  intro evs
  induction evs with
  | nil => intro st; simp
  | cons x rest ih =>
    intro st
    rw [List.foldl_cons, ih]
    simp [Sched.record]

/-- The committed value of the `tick % 2` reaction after any tick of the
`time` stream. -/
theorem evalHist_tickMod (h : List Event) (v : Int) :
    evalHist tickModReaction (h ++ [timeTick v]) = Val.num (v % 2) true := by
  simp only [tickModReaction, evalHist]
  rw [List.any_append]
  have htv : touches (timeTick v)
      (Expr.binop Op.mod (Expr.streamRead StreamName.time)
        (Expr.lit (Val.num 2 false))) = true := rfl
  simp only [List.any_cons, List.any_nil, Bool.or_false, htv, Bool.or_true,
    if_pos rfl, if_true]
  rw [latestOf_append]
  rfl

/-! ## Claim theorems -/

/-- C1: for every binary operator chain, operands are evaluated strictly in
source left-to-right order, never by arithmetic precedence: each operator is
applied to the value of the whole chain to its left, the chain `2 + 3 × 2`
evaluates to `10` (i.e. `(2+3)×2`) and not to the precedence result `8`, and
the left-nested AST of the chain evaluates to `10` as well. -/
theorem binary_chain_left_to_right :
    (∀ (first : Int) (rest : List (AOp × Int)) (op : AOp) (b : Int),
      evalChain first (rest ++ [(op, b)]) = op.apply (evalChain first rest) b) ∧
    evalChain 2 [(.add, 3), (.mul, 2)] = 10 ∧
    evalChain 2 [(.add, 3), (.mul, 2)] ≠ 8 ∧
    evalPrecedence 2 [(.add, 3), (.mul, 2)] = 8 ∧
    evalHist (chainExpr (.num 2 false) [(.add, .num 3 false), (.mul, .num 2 false)]) [] =
      Val.num 10 false := by
  refine ⟨?_, by decide, by decide, by decide, by decide⟩
  intro first rest op b
  simp [evalChain, List.foldl_append]

/-- Witness for C1 at a concrete chain. -/
theorem binary_chain_left_to_right_w :
    evalChain 2 ([] ++ [(AOp.mul, 2)]) = AOp.apply .mul (evalChain 2 []) 2 :=
  binary_chain_left_to_right.1 2 [] .mul 2

/-- C2: the committed output of the incremental evaluator is a deterministic
function of the AST and the stream history — the committed sequence equals
the from-scratch reference semantics at every prefix, so replaying the same
AST against the same prefix of stream history reproduces exactly the
committed values of the original run. -/
theorem evaluation_deterministic_replay :
    ∀ (e : Expr) (evs : List Event) (k : Nat),
    committedList e evs = evalHist e [] :: specVals e [] evs ∧
    committedList e (evs.take k) = (committedList e evs).take (k + 1) := by
  intro e evs k
  refine ⟨committedList_eq e evs, ?_⟩
  rw [committedList_eq, committedList_eq, specVals_take]
  simp

/-- Witness for C2 at a concrete program and prefix. -/
theorem evaluation_deterministic_replay_w :
    committedList timeGtZero ([timeTick 1].take 1) =
      (committedList timeGtZero [timeTick 1]).take 2 :=
  (evaluation_deterministic_replay timeGtZero [timeTick 1] 1).2

/-- C3: the program `time() > 0ms`, given a time stream whose first emission
is `1`(ms), commits `false` initially; after the stream emits a value
`≥ 501`(ms) the latest committed value is `true`. -/
theorem timeGtZero_scenario : ∀ v : Int, 501 ≤ v →
    committedList timeGtZero [timeTick 1, timeTick v] =
      [Val.boolV false, Val.boolV true, Val.boolV true] := by
  intro v hv
  rw [committedList_eq]
  have hl : latestOf ([] ++ [timeTick 1] ++ [timeTick v]) StreamName.time =
      Val.num v true := by
    rw [latestOf_append]
    rfl
  have h2 : evalHist timeGtZero ([] ++ [timeTick 1] ++ [timeTick v]) =
      Val.boolV true := by
    simp only [timeGtZero, evalHist]
    rw [hl]
    show Val.boolV (decide ((0 : Int) < v)) = Val.boolV true
    rw [decide_eq_true (by omega : (0 : Int) < v)]
  have h1 : evalHist timeGtZero ([] ++ [timeTick 1]) = Val.boolV true := by decide
  have h0 : evalHist timeGtZero [] = Val.boolV false := by decide
  simp only [specVals, h0]
  rw [h1, h2]

/-- Witness for C3 at the emission `501`. -/
theorem timeGtZero_scenario_w :
    committedList timeGtZero [timeTick 1, timeTick 501] =
      [Val.boolV false, Val.boolV true, Val.boolV true] :=
  timeGtZero_scenario 501 (by decide)

/-- C4 counterexample: the claim that a stream tick which does not change
`tick % 2` leaves the reaction subtree un-re-executed is false — after the
ticks `1` and `3` (same modulus, same committed value) the `next` subtree's
execution counter has still increased on the second tick. -/
theorem reaction_reexec_counterexample :
    ¬ (∀ (pre : List Event) (v w : Int), w % 2 = v % 2 →
        reactionNextCnt (runState tickModReaction (pre ++ [timeTick v] ++ [timeTick w])).1 =
          reactionNextCnt (runState tickModReaction (pre ++ [timeTick v])).1) := by
  intro hclaim
  have h := hclaim [] 1 3 (by decide)
  exact absurd h (by decide)

/-- C4 (amended): in the program binding `tick` to `time()` and `a` to the
reaction `1 … tick % 2`, the committed value changes only on passes in which
the value of `tick % 2` differs from the previously committed one: a tick
that leaves the modulus unchanged appends the same committed value again
(the cached Value is reused), although the stale reaction subtree is
re-executed to compute the modulus. -/
theorem tickMod_changes_only_with_mod :
    ∀ (pre : List Event) (v w : Int),
    (w % 2 = v % 2 →
      committedList tickModReaction (pre ++ [timeTick v] ++ [timeTick w]) =
        committedList tickModReaction (pre ++ [timeTick v]) ++
          [evalHist tickModReaction (pre ++ [timeTick v])]) ∧
    (evalHist tickModReaction (pre ++ [timeTick v] ++ [timeTick w]) ≠
        evalHist tickModReaction (pre ++ [timeTick v]) →
      w % 2 ≠ v % 2) := by
  intro pre v w
  have hval : ∀ (h : List Event) (u : Int),
      evalHist tickModReaction (h ++ [timeTick u]) = Val.num (u % 2) true :=
    fun h u => evalHist_tickMod h u
  constructor
  · intro hmod
    rw [committedList_append_one]
    rw [hval (pre ++ [timeTick v]) w, hval pre v, hmod]
  · intro hne hmm
    apply hne
    rw [hval (pre ++ [timeTick v]) w, hval pre v, hmm]

/-- Witness for the amended C4 at the ticks `1` and `3`. -/
theorem tickMod_changes_only_with_mod_w :
    committedList tickModReaction ([] ++ [timeTick 1] ++ [timeTick 3]) =
      committedList tickModReaction ([] ++ [timeTick 1]) ++
        [evalHist tickModReaction ([] ++ [timeTick 1])] :=
  (tickMod_changes_only_with_mod [] 1 3).1 (by decide)

/-- C5: an event on a stream that the right operand's subtree does not read
never re-executes that subtree's Steps — its entire cached state (committed
Value and execution counters) is exactly what it was before the event. -/
theorem disjoint_subtree_not_reexecuted :
    ∀ (op : Op) (ea eb : Expr) (evs : List Event) (s : StreamName) (v : Val),
    (streamsOf eb).any (fun x => x == s) = false →
    rightChild (runState (.binop op ea eb) (evs ++ [⟨s, v⟩])).1 =
      rightChild (runState (.binop op ea eb) evs).1 := by
  intro op ea eb evs s v hdisj
  have hqe : (runState (Expr.binop op ea eb) evs).1.erase = .binop op ea eb :=
    runState_erase _ _
  rw [runState, runState, List.foldl_append, List.foldl_cons, List.foldl_nil]
  rw [runState] at hqe
  generalize hq : evs.foldl stepState (initPass (Expr.binop op ea eb) (latestOf []), []) = q
    at hqe ⊢
  obtain ⟨a, h⟩ := q
  cases a with
  | lit v' cv c => exact absurd hqe (by simp [AExpr.erase])
  | streamRead s' cv c => exact absurd hqe (by simp [AExpr.erase])
  | reaction i' n' t' cv c => exact absurd hqe (by simp [AExpr.erase])
  | binop op' l r cv c =>
    simp only [AExpr.erase, Expr.binop.injEq] at hqe
    obtain ⟨hop, hl, hr⟩ := hqe
    simp only [stepState]
    by_cases hc : (streamsOf (AExpr.binop op' l r cv c).erase).any
        (tickStale ⟨s, v⟩) = false
    · rw [pass_not_stale _ _ _ hc]
    · rw [pass_stale_binop _ _ _ _ _ _ _ hc]
      simp only [rightChild]
      rw [pass_not_stale]
      rw [hr]
      exact hdisj

/-- Witness for C5: a `time` event does not touch a `keyboard` subtree. -/
theorem disjoint_subtree_not_reexecuted_w :
    rightChild (runState (.binop .add (.streamRead .time) (.streamRead .keyboard))
        ([] ++ [⟨StreamName.time, Val.num 5 true⟩])).1 =
      rightChild (runState (.binop .add (.streamRead .time)
        (.streamRead .keyboard)) []).1 :=
  disjoint_subtree_not_reexecuted .add (.streamRead .time) (.streamRead .keyboard)
    [] .time (Val.num 5 true) (by decide)

/-- C6: a pass reads stream values only from the snapshot taken at pass
start — stream events recorded after the pass has started change neither the
history the pass observes nor its committed value, and they are all observed
by the next pass. -/
theorem snapshot_consistency :
    ∀ (e : Expr) (st : Sched) (evs : List Event),
    passValue e (evs.foldl Sched.record st) = passValue e st ∧
    (evs.foldl Sched.record st).hist = st.hist ∧
    passValue e (finishPass (evs.foldl Sched.record st)) =
      evalHist e (st.hist ++ st.pending ++ evs) := by
  intro e st evs
  rw [sched_record_foldl]
  exact ⟨rfl, rfl, by simp [passValue, finishPass, List.append_assoc]⟩

/-- Witness for C6 at a concrete scheduler state. -/
theorem snapshot_consistency_w :
    passValue timeGtZero ([timeTick 1].foldl Sched.record ⟨[], []⟩) =
      passValue timeGtZero ⟨[], []⟩ :=
  (snapshot_consistency timeGtZero ⟨[], []⟩ [timeTick 1]).1

/-- C7: a pass executes at most the configured step budget and always
reaches a terminal state; a construct that never terminates on its own
yields the `NonTermination` result after exactly the budgeted number of
steps instead of running forever. -/
theorem step_budget_enforced :
    ∀ (S : Type) (step : S → S ⊕ Val) (budget : Nat) (s : S),
    (runBudget step budget s).2 ≤ budget ∧
    ((∀ t : S, (step t).isLeft) →
      runBudget step budget s = (.nonTermination, budget)) := by
  intro S step budget
  induction budget with
  | zero => intro s; exact ⟨Nat.le_refl 0, fun _ => rfl⟩
  | succ b ih =>
    intro s
    constructor
    · simp only [runBudget]
      cases hs : step s with
      | inr v => simp
      | inl s' =>
        simp only []
        have := (ih s').1
        omega
    · intro hdiv
      simp only [runBudget]
      cases hs : step s with
      | inr v =>
        have hl := hdiv s
        rw [hs] at hl
        simp at hl
      | inl s' =>
        have := (ih s').2 hdiv
        simp [this]

/-- Witness for C7 with the diverging one-state machine and budget 5. -/
theorem step_budget_enforced_w :
    runBudget (fun _ : Unit => Sum.inl ()) 5 () = (PassResult.nonTermination, 5) :=
  (step_budget_enforced Unit (fun _ => Sum.inl ()) 5 ()).2 (fun _ => rfl)

theorem filter_stream_map_nil : ∀ (l : List Nat) (f : Nat → Concept),
    (∀ x, (f x).isStream = false) → (l.map f).filter Concept.isStream = [] := by
  intro l f hf
  induction l with
  | nil => rfl
  | cons x rest ih =>
    simp only [List.map_cons, List.filter_cons, hf x]
    exact ih

/-- C8: the concept index built for a project registers exactly one
`StreamConcept` per member of the fixed built-in catalog — time, random,
keyboard, mouse-position, mouse-button and microphone — and no other stream
concepts, whatever the project, construct, native and output concepts are. -/
theorem stream_catalog_exact :
    ∀ (ps pf pb cs nv op : List Nat),
    (conceptIndexMake ps pf pb cs nv op).filter Concept.isStream =
      [.streamC .time, .streamC .mouseButton, .streamC .mousePosition,
        .streamC .keyboard, .streamC .microphone, .streamC .random] ∧
    ∀ s : StreamName,
      ((conceptIndexMake ps pf pb cs nv op).filter Concept.isStream).count
        (.streamC s) = 1 := by
  intro ps pf pb cs nv op
  have hfilter : (conceptIndexMake ps pf pb cs nv op).filter Concept.isStream =
      [.streamC .time, .streamC .mouseButton, .streamC .mousePosition,
        .streamC .keyboard, .streamC .microphone, .streamC .random] := by
    simp only [conceptIndexMake, List.filter_append]
    rw [filter_stream_map_nil ps Concept.structureC (fun _ => rfl),
      filter_stream_map_nil pf Concept.functionC (fun _ => rfl),
      filter_stream_map_nil pb Concept.bindC (fun _ => rfl),
      filter_stream_map_nil cs Concept.nodeC (fun _ => rfl),
      filter_stream_map_nil nv Concept.nativeC (fun _ => rfl),
      filter_stream_map_nil op Concept.outputC (fun _ => rfl)]
    rfl
  refine ⟨hfilter, ?_⟩
  intro s
  rw [hfilter]
  cases s <;> decide

/-- Witness for C8 with empty project inputs. -/
theorem stream_catalog_exact_w :
    (conceptIndexMake [] [] [] [] [] []).filter Concept.isStream =
      [.streamC .time, .streamC .mouseButton, .streamC .mousePosition,
        .streamC .keyboard, .streamC .microphone, .streamC .random] :=
  (stream_catalog_exact [] [] [] [] [] []).1

/-- C9: in localization template parsing, the conditional `$1 ?? [yes|no]`
selects the yes branch exactly when input 1 is not undefined; in
particular the boolean `false` selects the yes branch, not the no
branch. -/
theorem conditional_selects_on_not_undefined :
    (∀ i : TemplateInput,
      concretize testLocale "$1 ?? [yes|no]" [i] = Description.as "yes" ↔
        i ≠ TemplateInput.undef) ∧
    concretize testLocale "$1 ?? [yes|no]" [TemplateInput.boolI false] =
      Description.as "yes" := by
  constructor
  · intro i
    cases i with
    | undef => exact ⟨fun hcontra => absurd hcontra (by decide),
        fun hne => absurd rfl hne⟩
    | num n => exact ⟨fun _ => by simp, fun _ => rfl⟩
    | boolI b => cases b <;> exact ⟨fun _ => by simp, fun _ => rfl⟩
    | str s => exact ⟨fun _ => by simp, fun _ => rfl⟩
    | nodeRef s => exact ⟨fun _ => by simp, fun _ => rfl⟩
    | valueLink s => exact ⟨fun _ => by simp, fun _ => rfl⟩
    | desc d => exact ⟨fun _ => by simp, fun _ => rfl⟩
  · rfl

/-- Witness for C9 at the boolean `false`. -/
theorem conditional_selects_on_not_undefined_w :
    concretize testLocale "$1 ?? [yes|no]" [TemplateInput.boolI false] =
      Description.as "yes" :=
  (conditional_selects_on_not_undefined.1 (TemplateInput.boolI false)).mpr (by decide)

/-- C10: `concretize` is total — its fuel never runs out, an empty or `$?`
template yields the locale's unwritten placeholder, and whenever parsing
fails (for instance on an unterminated conditional) it falls back to the
description `-` instead of returning undefined. -/
theorem concretize_total :
    ∀ (loc : Locale) (inputs : List TemplateInput),
    concretize loc "" inputs = Description.as loc.unwritten ∧
    concretize loc "$?" inputs = Description.as loc.unwritten ∧
    (∀ template : String,
      parseTemplate (template.toList.length + 1) loc inputs ⟨[]⟩ template.toList ≠
        none) ∧
    (∀ template : String, concretizeOrUndefined loc template inputs = none →
      concretize loc template inputs = Description.as "-") ∧
    concretize testLocale "$1 ?? [missing" [TemplateInput.boolI true] =
      Description.as "-" := by
  intro loc inputs
  refine ⟨?_, ?_, ?_, ?_, by decide⟩
  · simp [concretize, concretizeOrUndefined]
  · simp [concretize, concretizeOrUndefined]
  · intro template
    obtain ⟨res, r, heq, -⟩ := (parse_fuel_sufficient (template.toList.length + 1)).1
      loc inputs ⟨[]⟩ template.toList (by omega)
    rw [heq]
    simp
  · intro template h
    simp [concretize, h]

/-- Witness for C10: the placeholder and the fallback on a concrete locale. -/
theorem concretize_total_w :
    concretize testLocale "" [] = Description.as "tbd" ∧
    concretize testLocale "$1 ?? [missing" [TemplateInput.boolI true] =
      Description.as "-" :=
  ⟨(concretize_total testLocale []).1,
    (concretize_total testLocale [TemplateInput.boolI true]).2.2.2.1
      "$1 ?? [missing" (by decide)⟩

end Wordplay
